import Mathlib

/-!
Verification of the ink! ERC-20 contract in `src/lib.rs` (module `erc20`).

The contract state is `total_supply : Nat` together with two persistent
key-value mappings, `balances : Mapping<AccountId, Balance>` and
`allowances : Mapping<(AccountId, AccountId), Balance>`.  The ink `Mapping`
offers `get` (returning `Option`, read through `unwrap_or_default`, so an
absent key reads as 0) and `insert` (overwrite).  We embed a mapping as an
association list with overwrite-insert; `AccountId` is embedded as `Nat`
(it is an opaque, equality-comparable key in the source) and `Balance`
(`u128` in ink's default environment) as `Nat`, with the source's unchecked
`u128` addition modelled as addition modulo `2 ^ 128` (release-profile
wrapping semantics); the subtractions in the source are both guarded by a
preceding `<` check, so truncated `Nat` subtraction coincides with them.

Each message returns the `Result`, the post-state, and the list of events
emitted during the call.  The ambient `self.env().caller()` is reified as an
explicit `caller` argument, as is the deploying caller for the constructor.
-/

/-- `u128::MAX + 1`: the modulus of the source's `Balance` type. -/
def U128 : Nat := 2 ^ 128

inductive Error where
  | InsufficientBalance
  | InsufficientAllowance
deriving DecidableEq, Repr

/-- The two ink events, `Transfer` and `Approval`. -/
inductive Event where
  | TransferEv (from? to? : Option Nat) (value : Nat)
  | ApprovalEv (owner spender : Nat) (value : Nat)
deriving DecidableEq, Repr

/-- Association-list model of ink's `Mapping`: lookup with default 0
(`get(..).unwrap_or_default()`). -/
def mget {α : Type} [DecidableEq α] : List (α × Nat) → α → Nat
  | [], _ => 0
  | (k', v) :: rest, k => if k' = k then v else mget rest k

/-- Remove every binding of key `k`. -/
def mdel {α : Type} [DecidableEq α] : List (α × Nat) → α → List (α × Nat)
  | [], _ => []
  | (k', v) :: rest, k => if k' = k then mdel rest k else (k', v) :: mdel rest k

/-- Overwrite-insert, the semantics of ink's `Mapping::insert`. -/
def mput {α : Type} [DecidableEq α] (m : List (α × Nat)) (k : α) (v : Nat) :
    List (α × Nat) :=
  (k, v) :: mdel m k

/-- Sum of all stored values of a mapping. -/
def msum {α : Type} : List (α × Nat) → Nat
  | [] => 0
  | (_, v) :: rest => v + msum rest

/-- The keys of a mapping. -/
def mkeys {α : Type} (m : List (α × Nat)) : List α := m.map Prod.fst

/-- Each key is bound at most once. -/
def NodupKeys {α : Type} (m : List (α × Nat)) : Prop := (mkeys m).Nodup

/-- The `#[ink(storage)]` struct `Erc20`. -/
structure Erc20 where
  total_supply : Nat
  balances : List (Nat × Nat)
  allowances : List ((Nat × Nat) × Nat)
deriving Repr

namespace Erc20

/-- `new_init`: run on the freshly allocated (all-default) storage; inserts the
whole initial supply for the caller, sets `total_supply`, emits the initial
`Transfer` event with `from = None`. -/
def new_init (caller : Nat) (initial_supply : Nat) : Erc20 × List Event :=
  ({ total_supply := initial_supply
     balances := mput [] caller initial_supply
     allowances := [] },
   [Event.TransferEv none (some caller) initial_supply])

/-- The `new` constructor: `initialize_contract` allocates default storage and
runs `new_init` on it. -/
def new (caller : Nat) (initial_supply : Nat) : Erc20 × List Event :=
  new_init caller initial_supply

/-- `balance_of_impl`: `self.balances.get(owner).unwrap_or_default()`. -/
def balance_of_impl (s : Erc20) (owner : Nat) : Nat :=
  mget s.balances owner

/-- The public `balance_of` message. -/
def balance_of (s : Erc20) (owner : Nat) : Nat :=
  mget s.balances owner

/-- `allowance_impl`: `self.allowances.get((owner, spender)).unwrap_or_default()`. -/
def allowance_impl (s : Erc20) (owner spender : Nat) : Nat :=
  mget s.allowances (owner, spender)

/-- The public `allowance` message. -/
def allowance (s : Erc20) (owner spender : Nat) : Nat :=
  allowance_impl s owner spender

/-- The core routine `transfer_from_to`.  The debit `from_balance - value` is
guarded; the credit `to_balance + value` is an unchecked `u128` addition in the
source (src/lib.rs:104), modelled as addition modulo `2 ^ 128`.  Note the
source re-reads `to_balance` after the debit insert, so a self-transfer reads
the already-debited balance. -/
def transfer_from_to (s : Erc20) (from_ to_ : Nat) (value : Nat) :
    Except Error Unit × Erc20 × List Event :=
  let from_balance := balance_of_impl s from_
  if from_balance < value then
    (Except.error Error.InsufficientBalance, s, [])
  else
    let s1 : Erc20 := { s with balances := mput s.balances from_ (from_balance - value) }
    let to_balance := balance_of_impl s1 to_
    let s2 : Erc20 := { s1 with balances := mput s1.balances to_ ((to_balance + value) % U128) }
    (Except.ok (), s2, [Event.TransferEv (some from_) (some to_) value])

/-- The public `transfer` message: the ambient caller is the source. -/
def transfer (s : Erc20) (caller to_ : Nat) (value : Nat) :
    Except Error Unit × Erc20 × List Event :=
  transfer_from_to s caller to_ value

/-- The public `approve` message: unconditional overwrite of the
`(caller, spender)` allowance, one `Approval` event, always `Ok`. -/
def approve (s : Erc20) (caller spender : Nat) (value : Nat) :
    Except Error Unit × Erc20 × List Event :=
  (Except.ok (),
   { s with allowances := mput s.allowances (caller, spender) value },
   [Event.ApprovalEv caller spender value])

/-- The public `transfer_from` message: allowance check, then the core
routine propagated with `?`, then (only on success) the allowance decrement. -/
def transfer_from (s : Erc20) (caller from_ to_ : Nat) (value : Nat) :
    Except Error Unit × Erc20 × List Event :=
  let allowance := allowance_impl s from_ caller
  if allowance < value then
    (Except.error Error.InsufficientAllowance, s, [])
  else
    match transfer_from_to s from_ to_ value with
    | (Except.error e, s', ev) => (Except.error e, s', ev)
    | (Except.ok _, s', ev) =>
        (Except.ok (),
         { s' with allowances := mput s'.allowances (from_, caller) (allowance - value) },
         ev)

end Erc20

/-- One invocation of a mutating message, with its ambient caller. -/
inductive Op where
  | transferOp (caller to_ : Nat) (value : Nat)
  | approveOp (caller spender : Nat) (value : Nat)
  | transferFromOp (caller from_ to_ : Nat) (value : Nat)

/-- The post-state of one invocation (whether it succeeded or failed). -/
def applyOp (s : Erc20) : Op → Erc20
  | Op.transferOp c t v => (Erc20.transfer s c t v).2.1
  | Op.approveOp c sp v => (Erc20.approve s c sp v).2.1
  | Op.transferFromOp c f t v => (Erc20.transfer_from s c f t v).2.1

/-- States reachable from `new(initial_supply)` by any sequence of `transfer`,
`approve` and `transfer_from` calls.  `initial_supply < 2 ^ 128` is the
representability constraint of the constructor's `u128` argument. -/
inductive Reachable (deployer : Nat) (initial_supply : Nat) : Erc20 → Prop where
  | init : initial_supply < U128 →
      Reachable deployer initial_supply (Erc20.new deployer initial_supply).1
  | step (op : Op) {s : Erc20} : Reachable deployer initial_supply s →
      Reachable deployer initial_supply (applyOp s op)

/-- The inductive invariant: balance keys are unaliased, the stored balances
sum to `total_supply`, and `total_supply` is `u128`-representable. -/
def LedgerInv (s : Erc20) : Prop :=
  NodupKeys s.balances ∧ msum s.balances = s.total_supply ∧ s.total_supply < U128

instance : DecidablePred LedgerInv := fun s => by
  unfold LedgerInv NodupKeys
  infer_instance

/-! ### Association-list lemmas -/

theorem mget_mdel_ne {α : Type} [DecidableEq α] (m : List (α × Nat)) (k k' : α)
    (h : k' ≠ k) : mget (mdel m k) k' = mget m k' := by
  induction m with
  | nil => rfl
  | cons p rest ih =>
    obtain ⟨a, v⟩ := p
    by_cases hak : a = k
    · simp [mdel, mget, hak, h.symm, ih]
    · by_cases hak' : a = k'
      · simp [mdel, mget, hak, hak', h]
      · simp [mdel, mget, hak, hak', ih]

theorem mget_mput_self {α : Type} [DecidableEq α] (m : List (α × Nat)) (k : α)
    (v : Nat) : mget (mput m k v) k = v := by
  simp [mput, mget]

theorem mget_mput_ne {α : Type} [DecidableEq α] (m : List (α × Nat)) (k k' : α)
    (v : Nat) (h : k' ≠ k) : mget (mput m k v) k' = mget m k' := by
  simp [mput, mget, Ne.symm h, mget_mdel_ne m k k' h]

theorem mget_le_msum {α : Type} [DecidableEq α] (m : List (α × Nat)) (k : α) :
    mget m k ≤ msum m := by
  induction m with
  | nil => simp [mget, msum]
  | cons p rest ih =>
    obtain ⟨a, v⟩ := p
    by_cases hak : a = k
    · simp [mget, msum, hak]
    · simp only [mget, msum, if_neg hak]
      exact le_add_of_nonneg_of_le (Nat.zero_le v) ih

theorem msum_mput {α : Type} [DecidableEq α] (m : List (α × Nat)) (k : α)
    (v : Nat) : msum (mput m k v) = v + msum (mdel m k) := by
  simp [mput, msum]

theorem mdel_eq_of_not_mem {α : Type} [DecidableEq α] (m : List (α × Nat)) (k : α)
    (h : k ∉ mkeys m) : mdel m k = m := by
  induction m with
  | nil => rfl
  | cons p rest ih =>
    obtain ⟨a, v⟩ := p
    simp only [mkeys, List.map_cons, List.mem_cons] at h
    push_neg at h
    simp [mdel, Ne.symm h.1, ih (by simpa [mkeys] using h.2)]

theorem mkeys_mdel_sublist {α : Type} [DecidableEq α] (m : List (α × Nat)) (k : α) :
    (mkeys (mdel m k)).Sublist (mkeys m) := by
  induction m with
  | nil => simp [mdel, mkeys]
  | cons p rest ih =>
    obtain ⟨a, v⟩ := p
    by_cases hak : a = k
    · simp only [mdel, if_pos hak, mkeys, List.map_cons]
      exact ih.trans (List.sublist_cons_self a _)
    · simpa only [mdel, if_neg hak, mkeys, List.map_cons] using ih.cons₂ a

theorem not_mem_mkeys_mdel {α : Type} [DecidableEq α] (m : List (α × Nat)) (k : α) :
    k ∉ mkeys (mdel m k) := by
  induction m with
  | nil => simp [mdel, mkeys]
  | cons p rest ih =>
    obtain ⟨a, v⟩ := p
    by_cases hak : a = k
    · simpa [mdel, hak] using ih
    · simp only [mdel, if_neg hak, mkeys, List.map_cons, List.mem_cons]
      push_neg
      refine ⟨Ne.symm hak, ?_⟩
      simpa [mkeys] using ih

theorem nodupKeys_mdel {α : Type} [DecidableEq α] (m : List (α × Nat)) (k : α)
    (h : NodupKeys m) : NodupKeys (mdel m k) :=
  (mkeys_mdel_sublist m k).nodup h

theorem nodupKeys_mput {α : Type} [DecidableEq α] (m : List (α × Nat)) (k : α)
    (v : Nat) (h : NodupKeys m) : NodupKeys (mput m k v) := by
  unfold NodupKeys mput
  simp only [mkeys, List.map_cons, List.nodup_cons]
  exact ⟨not_mem_mkeys_mdel m k, nodupKeys_mdel m k h⟩

theorem msum_eq_mget_add {α : Type} [DecidableEq α] (m : List (α × Nat)) (k : α)
    (h : NodupKeys m) : msum m = mget m k + msum (mdel m k) := by
  induction m with
  | nil => rfl
  | cons p rest ih =>
    obtain ⟨a, v⟩ := p
    have hrest : NodupKeys rest := by
      unfold NodupKeys mkeys at h ⊢
      exact (List.nodup_cons.mp h).2
    by_cases hak : a = k
    · have hnot : k ∉ mkeys rest := by
        unfold NodupKeys mkeys at h
        subst hak
        exact (List.nodup_cons.mp h).1
      simp [mget, mdel, msum, hak, mdel_eq_of_not_mem rest k hnot]
    · simp only [mget, mdel, msum, if_neg hak]
      rw [ih hrest]
      ring

/-! ### Invariant preservation -/

theorem ledgerInv_new (d : Nat) (i : Nat) (h : i < U128) :
    LedgerInv (Erc20.new d i).1 := by
  refine ⟨?_, ?_, h⟩
  · simp [Erc20.new, Erc20.new_init, NodupKeys, mput, mdel, mkeys]
  · simp [Erc20.new, Erc20.new_init, mput, mdel, msum]

theorem transfer_from_to_balances (s : Erc20) (from_ to_ : Nat) (value : Nat)
    (h : ¬ Erc20.balance_of_impl s from_ < value) :
    (Erc20.transfer_from_to s from_ to_ value).2.1.balances =
      mput (mput s.balances from_ (Erc20.balance_of_impl s from_ - value)) to_
        ((mget (mput s.balances from_ (Erc20.balance_of_impl s from_ - value)) to_ + value)
          % U128) := by
  unfold Erc20.balance_of_impl at h
  simp [Erc20.transfer_from_to, h, Erc20.balance_of_impl]

theorem transfer_from_to_allowances (s : Erc20) (from_ to_ : Nat) (value : Nat) :
    (Erc20.transfer_from_to s from_ to_ value).2.1.allowances = s.allowances := by
  unfold Erc20.transfer_from_to
  by_cases h : Erc20.balance_of_impl s from_ < value <;> simp [h]

theorem transfer_from_to_total (s : Erc20) (from_ to_ : Nat) (value : Nat) :
    (Erc20.transfer_from_to s from_ to_ value).2.1.total_supply = s.total_supply := by
  unfold Erc20.transfer_from_to
  by_cases h : Erc20.balance_of_impl s from_ < value <;> simp [h]

/-- On a state satisfying the invariant, a sufficiently funded core transfer
takes its success branch and the credit does not wrap: `to`'s post-debit
balance plus `value` stays below `2 ^ 128` because all balances sum to
`total_supply < 2 ^ 128`. -/
theorem tfft_ok_eq (s : Erc20) (f t : Nat) (v : Nat)
    (hinv : LedgerInv s) (hv : v ≤ mget s.balances f) :
    Erc20.transfer_from_to s f t v =
      (Except.ok (),
       { s with balances := mput (mput s.balances f (mget s.balances f - v)) t (mget (mput s.balances f (mget s.balances f - v)) t + v) },
       [Event.TransferEv (some f) (some t) v]) := by
  obtain ⟨hnd, hsum, hT⟩ := hinv
  have hfb_le : mget s.balances f ≤ msum s.balances := mget_le_msum s.balances f
  have h1 := msum_mput s.balances f (mget s.balances f - v)
  have h2 := msum_eq_mget_add s.balances f hnd
  have htb_le : mget (mput s.balances f (mget s.balances f - v)) t
      ≤ msum (mput s.balances f (mget s.balances f - v)) := mget_le_msum _ t
  have hnowrap : mget (mput s.balances f (mget s.balances f - v)) t + v < U128 := by
    omega
  have hcond : ¬ mget s.balances f < v := not_lt.mpr hv
  unfold Erc20.transfer_from_to Erc20.balance_of_impl
  simp [hcond, Nat.mod_eq_of_lt hnowrap]

/-- Replacing the balances of an invariant-satisfying state with a mapping of
the same key discipline and the same sum preserves the invariant. -/
theorem ledgerInv_set_balances (s : Erc20) (b : List (Nat × Nat))
    (h1 : NodupKeys b) (h2 : msum b = s.total_supply) (h3 : s.total_supply < U128) :
    LedgerInv { s with balances := b } :=
  ⟨h1, h2, h3⟩

/-- The core transfer routine preserves the ledger invariant. -/
theorem tfft_preserves_inv (s : Erc20) (f t : Nat) (v : Nat)
    (hinv : LedgerInv s) : LedgerInv (Erc20.transfer_from_to s f t v).2.1 := by
  by_cases hc : mget s.balances f < v
  · have : Erc20.transfer_from_to s f t v = (Except.error Error.InsufficientBalance, s, []) := by
      unfold Erc20.transfer_from_to Erc20.balance_of_impl
      simp [hc]
    rw [this]
    exact hinv
  · rw [tfft_ok_eq s f t v hinv (not_lt.mp hc)]
    obtain ⟨hnd, hsum, hT⟩ := hinv
    have hnd1 : NodupKeys (mput s.balances f (mget s.balances f - v)) :=
      nodupKeys_mput _ _ _ hnd
    refine ledgerInv_set_balances s _ (nodupKeys_mput _ _ _ hnd1) ?_ hT
    have hfb_le : mget s.balances f ≤ msum s.balances := mget_le_msum s.balances f
    have h1 := msum_mput s.balances f (mget s.balances f - v)
    have h2 := msum_eq_mget_add s.balances f hnd
    have htb_le : mget (mput s.balances f (mget s.balances f - v)) t
        ≤ msum (mput s.balances f (mget s.balances f - v)) := mget_le_msum _ t
    have h3 := msum_mput (mput s.balances f (mget s.balances f - v)) t
        (mget (mput s.balances f (mget s.balances f - v)) t + v)
    have h4 := msum_eq_mget_add (mput s.balances f (mget s.balances f - v)) t hnd1
    omega

/-- `approve` preserves the ledger invariant (it touches only allowances). -/
theorem approve_preserves_inv (s : Erc20) (c sp : Nat) (v : Nat)
    (hinv : LedgerInv s) : LedgerInv (Erc20.approve s c sp v).2.1 := by
  obtain ⟨hnd, hsum, hT⟩ := hinv
  exact ⟨hnd, hsum, hT⟩

/-- `transfer_from` preserves the ledger invariant. -/
theorem transfer_from_preserves_inv (s : Erc20) (c f t : Nat) (v : Nat)
    (hinv : LedgerInv s) : LedgerInv (Erc20.transfer_from s c f t v).2.1 := by
  unfold Erc20.transfer_from
  by_cases hc : Erc20.allowance_impl s f c < v
  · simp only [hc, if_true]
    exact hinv
  · simp only [hc, if_false]
    have hts := tfft_preserves_inv s f t v hinv
    rcases hres : Erc20.transfer_from_to s f t v with ⟨r, s', ev⟩
    rw [hres] at hts
    cases r with
    | error e => exact hts
    | ok u => exact ⟨hts.1, hts.2.1, hts.2.2⟩

/-- Every single invocation preserves the ledger invariant. -/
theorem applyOp_preserves_inv (s : Erc20) (op : Op) (hinv : LedgerInv s) :
    LedgerInv (applyOp s op) := by
  cases op with
  | transferOp c t v => exact tfft_preserves_inv s c t v hinv
  | approveOp c sp v => exact approve_preserves_inv s c sp v hinv
  | transferFromOp c f t v => exact transfer_from_preserves_inv s c f t v hinv

/-- Every reachable state satisfies the ledger invariant. -/
theorem reachable_ledgerInv (d : Nat) (i : Nat) (s : Erc20)
    (h : Reachable d i s) : LedgerInv s := by
  induction h with
  | init hlt => exact ledgerInv_new d i hlt
  | step op _ ih => exact applyOp_preserves_inv _ op ih

/-! ### Claims -/

/-- C1: for every state reachable from `new(initial_supply)` by any sequence
of `transfer`, `approve` and `transfer_from` operations, the sum of all values
stored in the `balances` mapping equals `total_supply()`. -/
theorem conservation_invariant (d i : Nat) (s : Erc20) (h : Reachable d i s) :
    msum s.balances = s.total_supply :=
  (reachable_ledgerInv d i s h).2.1

theorem conservation_invariant_witness :
    msum (applyOp (Erc20.new 1 100).1 (Op.transferOp 1 2 30)).balances =
      (applyOp (Erc20.new 1 100).1 (Op.transferOp 1 2 30)).total_supply :=
  conservation_invariant 1 100 _
    (Reachable.step (Op.transferOp 1 2 30) (Reachable.init (by decide)))

/-- C2 (failing input): the credit in `transfer_from_to` (src/lib.rs:104) is
an unchecked `u128` addition, not a guarded one.  On a state where the
recipient already holds `u128::MAX` (`2 ^ 128 - 1`), transferring 1 more token
to it returns `Ok` and silently wraps the recipient's balance to 0 instead of
failing closed with an error. -/
theorem credit_overflow_wraps :
    (Erc20.transfer_from_to { total_supply := 0, balances := [(1, 1), (2, U128 - 1)], allowances := [] } 1 2 1).1 = Except.ok () ∧
    Erc20.balance_of (Erc20.transfer_from_to { total_supply := 0, balances := [(1, 1), (2, U128 - 1)], allowances := [] } 1 2 1).2.1 2 = 0 := by
  constructor
  · rfl
  · decide

/-- C3: when the caller's allowance from `from` covers `value` but `from`'s
balance does not, `transfer_from` returns `InsufficientBalance` and the whole
state is unchanged (the allowance of `(from, caller)` in particular is not
decremented, since the decrement happens strictly after the balance movement
succeeds); no event is emitted. -/
theorem transfer_from_insufficient_balance (s : Erc20) (caller from_ to_ v : Nat)
    (hal : v ≤ Erc20.allowance s from_ caller)
    (hb : Erc20.balance_of s from_ < v) :
    Erc20.transfer_from s caller from_ to_ v =
      (Except.error Error.InsufficientBalance, s, []) ∧
    Erc20.allowance (Erc20.transfer_from s caller from_ to_ v).2.1 from_ caller =
      Erc20.allowance s from_ caller := by
  have hguard : ¬ Erc20.allowance_impl s from_ caller < v := not_lt.mpr hal
  have herr : Erc20.transfer_from_to s from_ to_ v =
      (Except.error Error.InsufficientBalance, s, []) := by
    unfold Erc20.transfer_from_to Erc20.balance_of_impl
    unfold Erc20.balance_of at hb
    simp [hb]
  have hmain : Erc20.transfer_from s caller from_ to_ v =
      (Except.error Error.InsufficientBalance, s, []) := by
    unfold Erc20.transfer_from
    rw [herr]
    simp [hguard]
  exact ⟨hmain, by rw [hmain]⟩

theorem transfer_from_insufficient_balance_witness :
    Erc20.transfer_from (Erc20.approve (Erc20.new 1 100).1 1 2 300).2.1 2 1 3 200 =
      (Except.error Error.InsufficientBalance,
       (Erc20.approve (Erc20.new 1 100).1 1 2 300).2.1, []) :=
  (transfer_from_insufficient_balance (Erc20.approve (Erc20.new 1 100).1 1 2 300).2.1
    2 1 3 200 (by decide) (by decide)).1

/-- C4: when the stored allowance of `(from, caller)` is below `value`,
`transfer_from` fails with `InsufficientAllowance` and performs no state
mutation at all: the state is returned unchanged, so every balance and every
allowance (including `allowance(from, caller)`) reads the same. -/
theorem transfer_from_insufficient_allowance (s : Erc20) (caller from_ to_ v : Nat)
    (h : Erc20.allowance s from_ caller < v) :
    Erc20.transfer_from s caller from_ to_ v =
      (Except.error Error.InsufficientAllowance, s, []) ∧
    (∀ a, Erc20.balance_of (Erc20.transfer_from s caller from_ to_ v).2.1 a =
      Erc20.balance_of s a) ∧
    (∀ o sp, Erc20.allowance (Erc20.transfer_from s caller from_ to_ v).2.1 o sp =
      Erc20.allowance s o sp) := by
  have hmain : Erc20.transfer_from s caller from_ to_ v =
      (Except.error Error.InsufficientAllowance, s, []) := by
    unfold Erc20.transfer_from
    unfold Erc20.allowance Erc20.allowance_impl at h
    simp [Erc20.allowance_impl, h]
  refine ⟨hmain, ?_, ?_⟩
  · intro a
    rw [hmain]
  · intro o sp
    rw [hmain]

theorem transfer_from_insufficient_allowance_witness :
    Erc20.transfer_from (Erc20.approve (Erc20.new 1 100).1 1 2 10).2.1 2 1 3 20 =
      (Except.error Error.InsufficientAllowance,
       (Erc20.approve (Erc20.new 1 100).1 1 2 10).2.1, []) :=
  (transfer_from_insufficient_allowance (Erc20.approve (Erc20.new 1 100).1 1 2 10).2.1
    2 1 3 20 (by decide)).1

/-- C5: when the caller's balance is below `value`, `transfer` fails with
`InsufficientBalance` and mutates nothing: the state is returned unchanged, so
every account's `balance_of` reads the same value as before. -/
theorem transfer_insufficient_balance (s : Erc20) (caller to_ v : Nat)
    (h : Erc20.balance_of s caller < v) :
    Erc20.transfer s caller to_ v = (Except.error Error.InsufficientBalance, s, []) ∧
    ∀ a, Erc20.balance_of (Erc20.transfer s caller to_ v).2.1 a = Erc20.balance_of s a := by
  have hmain : Erc20.transfer s caller to_ v =
      (Except.error Error.InsufficientBalance, s, []) := by
    unfold Erc20.transfer Erc20.transfer_from_to Erc20.balance_of_impl
    unfold Erc20.balance_of at h
    simp [h]
  exact ⟨hmain, fun a => by rw [hmain]⟩

theorem transfer_insufficient_balance_witness :
    Erc20.transfer (Erc20.new 1 100).1 1 2 150 =
      (Except.error Error.InsufficientBalance, (Erc20.new 1 100).1, []) ∧
    Erc20.balance_of (Erc20.transfer (Erc20.new 1 100).1 1 2 150).2.1 1 =
      Erc20.balance_of (Erc20.new 1 100).1 1 :=
  ⟨(transfer_insufficient_balance (Erc20.new 1 100).1 1 2 150 (by decide)).1,
   (transfer_insufficient_balance (Erc20.new 1 100).1 1 2 150 (by decide)).2 1⟩

/-- C7: `approve` succeeds for every state, caller, spender and value, with no
precondition; it overwrites the stored allowance of `(caller, spender)` with
`value` (rather than adding to it) and emits one `Approval` event.  The last
conjunct is the overwrite consequence: after any earlier grant `w`, a second
`approve` of `v` leaves the allowance at exactly `v`. -/
theorem approve_overwrites (s : Erc20) (caller spender v : Nat) :
    (Erc20.approve s caller spender v).1 = Except.ok () ∧
    Erc20.allowance (Erc20.approve s caller spender v).2.1 caller spender = v ∧
    (Erc20.approve s caller spender v).2.2 = [Event.ApprovalEv caller spender v] ∧
    ∀ w, Erc20.allowance
      (Erc20.approve (Erc20.approve s caller spender w).2.1 caller spender v).2.1
      caller spender = v := by
  refine ⟨rfl, ?_, rfl, ?_⟩
  · unfold Erc20.approve Erc20.allowance Erc20.allowance_impl
    exact mget_mput_self _ _ _
  · intro w
    unfold Erc20.approve Erc20.allowance Erc20.allowance_impl
    exact mget_mput_self _ _ _

/-- C10: `transfer_from` grants the owner no implicit privilege: with
`caller = from` the allowance check is still made against
`allowance(from, from)`, so if the owner never approved itself for `value`
the call fails with `InsufficientAllowance` even though `balance_of(from)`
covers `value`. -/
theorem transfer_from_owner_no_privilege (s : Erc20) (from_ to_ v : Nat)
    (_hb : v ≤ Erc20.balance_of s from_)
    (h : Erc20.allowance s from_ from_ < v) :
    Erc20.transfer_from s from_ from_ to_ v =
      (Except.error Error.InsufficientAllowance, s, []) := by
  unfold Erc20.transfer_from
  unfold Erc20.allowance Erc20.allowance_impl at h
  simp [Erc20.allowance_impl, h]

theorem transfer_from_owner_no_privilege_witness :
    Erc20.transfer_from (Erc20.new 1 100).1 1 1 2 10 =
      (Except.error Error.InsufficientAllowance, (Erc20.new 1 100).1, []) :=
  transfer_from_owner_no_privilege (Erc20.new 1 100).1 1 2 10 (by decide) (by decide)

/-- On an invariant-satisfying state, a `transfer_from` with sufficient
allowance and sufficient balance takes its success path: balances move through
the core routine, then the allowance of `(from, caller)` is overwritten with
the old allowance minus `value`. -/
theorem transfer_from_ok_eq (s : Erc20) (caller from_ to_ v : Nat)
    (hinv : LedgerInv s)
    (hal : v ≤ Erc20.allowance_impl s from_ caller)
    (hb : v ≤ mget s.balances from_) :
    Erc20.transfer_from s caller from_ to_ v =
      (Except.ok (),
       { s with balances := mput (mput s.balances from_ (mget s.balances from_ - v)) to_ (mget (mput s.balances from_ (mget s.balances from_ - v)) to_ + v),
                allowances := mput s.allowances (from_, caller) (Erc20.allowance_impl s from_ caller - v) },
       [Event.TransferEv (some from_) (some to_) v]) := by
  have hguard : ¬ Erc20.allowance_impl s from_ caller < v := not_lt.mpr hal
  unfold Erc20.transfer_from
  rw [tfft_ok_eq s from_ to_ v hinv hb]
  simp [hguard]

/-- C6: on a state satisfying the ledger invariant (which holds in every
reachable state, `reachable_ledgerInv`), a `transfer` whose caller holds at
least `value`, with `caller ≠ to`, returns `Ok`, decreases the caller's
balance by exactly `value`, increases the recipient's balance by exactly
`value`, leaves every other balance unchanged, and emits exactly one
`Transfer` event with `from = Some caller`, `to = Some to`. -/
theorem transfer_ok_spec (s : Erc20) (caller to_ v : Nat)
    (hinv : LedgerInv s)
    (hv : v ≤ Erc20.balance_of s caller)
    (hne : caller ≠ to_) :
    (Erc20.transfer s caller to_ v).1 = Except.ok () ∧
    Erc20.balance_of (Erc20.transfer s caller to_ v).2.1 caller =
      Erc20.balance_of s caller - v ∧
    Erc20.balance_of (Erc20.transfer s caller to_ v).2.1 to_ =
      Erc20.balance_of s to_ + v ∧
    (∀ a, a ≠ caller → a ≠ to_ →
      Erc20.balance_of (Erc20.transfer s caller to_ v).2.1 a = Erc20.balance_of s a) ∧
    (Erc20.transfer s caller to_ v).2.2 = [Event.TransferEv (some caller) (some to_) v] := by
  have hv' : v ≤ mget s.balances caller := hv
  unfold Erc20.transfer
  rw [tfft_ok_eq s caller to_ v hinv hv']
  refine ⟨rfl, ?_, ?_, ?_, rfl⟩
  · simp only [Erc20.balance_of]
    rw [mget_mput_ne _ to_ caller _ hne, mget_mput_self]
  · simp only [Erc20.balance_of]
    rw [mget_mput_self, mget_mput_ne _ caller to_ _ (Ne.symm hne)]
  · intro a hac hat
    simp only [Erc20.balance_of]
    rw [mget_mput_ne _ to_ a _ hat, mget_mput_ne _ caller a _ hac]

theorem transfer_ok_spec_witness :
    Erc20.balance_of (Erc20.transfer (Erc20.new 1 100).1 1 2 10).2.1 1 =
      Erc20.balance_of (Erc20.new 1 100).1 1 - 10 ∧
    Erc20.balance_of (Erc20.transfer (Erc20.new 1 100).1 1 2 10).2.1 2 =
      Erc20.balance_of (Erc20.new 1 100).1 2 + 10 :=
  ⟨(transfer_ok_spec (Erc20.new 1 100).1 1 2 10 (by decide) (by decide) (by decide)).2.1,
   (transfer_ok_spec (Erc20.new 1 100).1 1 2 10 (by decide) (by decide) (by decide)).2.2.1⟩

/-- C8: on a state satisfying the ledger invariant (true of every reachable
state), a `transfer_from` whose `(from, caller)` allowance and whose `from`
balance both cover `value` (with `from ≠ to`) returns `Ok`, moves exactly
`value` from `balance_of(from)` to `balance_of(to)` (all other balances
unchanged), and decrements `allowance(from, caller)` by exactly `value`. -/
theorem transfer_from_ok_spec (s : Erc20) (caller from_ to_ v : Nat)
    (hinv : LedgerInv s)
    (hal : v ≤ Erc20.allowance s from_ caller)
    (hb : v ≤ Erc20.balance_of s from_)
    (hne : from_ ≠ to_) :
    (Erc20.transfer_from s caller from_ to_ v).1 = Except.ok () ∧
    Erc20.balance_of (Erc20.transfer_from s caller from_ to_ v).2.1 from_ =
      Erc20.balance_of s from_ - v ∧
    Erc20.balance_of (Erc20.transfer_from s caller from_ to_ v).2.1 to_ =
      Erc20.balance_of s to_ + v ∧
    (∀ a, a ≠ from_ → a ≠ to_ →
      Erc20.balance_of (Erc20.transfer_from s caller from_ to_ v).2.1 a =
        Erc20.balance_of s a) ∧
    Erc20.allowance (Erc20.transfer_from s caller from_ to_ v).2.1 from_ caller =
      Erc20.allowance s from_ caller - v := by
  rw [transfer_from_ok_eq s caller from_ to_ v hinv hal hb]
  refine ⟨rfl, ?_, ?_, ?_, ?_⟩
  · simp only [Erc20.balance_of]
    rw [mget_mput_ne _ to_ from_ _ hne, mget_mput_self]
  · simp only [Erc20.balance_of]
    rw [mget_mput_self, mget_mput_ne _ from_ to_ _ (Ne.symm hne)]
  · intro a haf hat
    simp only [Erc20.balance_of]
    rw [mget_mput_ne _ to_ a _ hat, mget_mput_ne _ from_ a _ haf]
  · simp only [Erc20.allowance, Erc20.allowance_impl]
    exact mget_mput_self _ _ _

theorem transfer_from_ok_spec_witness :
    Erc20.balance_of
      (Erc20.transfer_from (Erc20.approve (Erc20.new 1 100).1 1 2 10).2.1 2 1 3 10).2.1 3 =
      Erc20.balance_of (Erc20.approve (Erc20.new 1 100).1 1 2 10).2.1 3 + 10 ∧
    Erc20.allowance
      (Erc20.transfer_from (Erc20.approve (Erc20.new 1 100).1 1 2 10).2.1 2 1 3 10).2.1 1 2 =
      Erc20.allowance (Erc20.approve (Erc20.new 1 100).1 1 2 10).2.1 1 2 - 10 :=
  ⟨(transfer_from_ok_spec (Erc20.approve (Erc20.new 1 100).1 1 2 10).2.1 2 1 3 10
      (by decide) (by decide) (by decide) (by decide)).2.2.1,
   (transfer_from_ok_spec (Erc20.approve (Erc20.new 1 100).1 1 2 10).2.1 2 1 3 10
      (by decide) (by decide) (by decide) (by decide)).2.2.2.2⟩

/-- C9: on a state satisfying the ledger invariant (true of every reachable
state), a self-transfer (`from = to`) with sufficient balance succeeds through
the core routine, every balance (including `from`'s own) reads the same after
the call as before, and the `Transfer{Some from, Some from, value}` event is
still emitted. -/
theorem transfer_self_noop (s : Erc20) (f v : Nat)
    (hinv : LedgerInv s) (hv : v ≤ Erc20.balance_of s f) :
    (Erc20.transfer_from_to s f f v).1 = Except.ok () ∧
    (∀ a, Erc20.balance_of (Erc20.transfer_from_to s f f v).2.1 a =
      Erc20.balance_of s a) ∧
    (Erc20.transfer_from_to s f f v).2.2 = [Event.TransferEv (some f) (some f) v] := by
  have hv' : v ≤ mget s.balances f := hv
  rw [tfft_ok_eq s f f v hinv hv']
  refine ⟨rfl, ?_, rfl⟩
  intro a
  simp only [Erc20.balance_of]
  by_cases haf : a = f
  · subst haf
    rw [mget_mput_self, mget_mput_self]
    exact Nat.sub_add_cancel hv'
  · rw [mget_mput_ne _ f a _ haf, mget_mput_ne _ f a _ haf]

theorem transfer_self_noop_witness :
    (Erc20.transfer_from_to (Erc20.new 1 100).1 1 1 40).1 = Except.ok () ∧
    Erc20.balance_of (Erc20.transfer_from_to (Erc20.new 1 100).1 1 1 40).2.1 1 =
      Erc20.balance_of (Erc20.new 1 100).1 1 :=
  ⟨(transfer_self_noop (Erc20.new 1 100).1 1 40 (by decide) (by decide)).1,
   (transfer_self_noop (Erc20.new 1 100).1 1 40 (by decide) (by decide)).2.1 1⟩
